import Mathlib

/-!
Verification of the market-data recorder's core (ring buffer, ingest loop,
incremental parquet flush, bucket-writer lifecycle, shutdown flush).

The definitions below are a shallow embedding of the Python sources:
`RingBuffer` and `MarketRecorder` follow `dhan_incremental_util.py`, the
implementation that keeps a flush cursor (`last_flush_idx`) and a long-lived
incremental writer.  NumPy arrays become Lean lists, mutation becomes explicit
state passing, and I/O effects (writer open/close, table writes) are recorded
as explicit events.  File-system paths are modelled as lists of path
components (what `os.path.join` concatenates).
-/

set_option maxHeartbeats 1000000

/-- A path, as the list of components joined by `os.path.join`.
A bare filename is a one-component path. -/
abbrev FsPath := List String

/-- One price/quantity depth level of an update (`level["price"]`,
`level["quantity"]`). -/
structure Level where
  price : Rat
  quantity : Int
deriving DecidableEq

/-- A structured update as produced by `fd.process_data`: an event kind
(`update["type"]`), an instrument id, and the depth levels.  The
`remaining_data` chaining is modelled by processing a list of updates. -/
structure Update where
  type : String
  security_id : String
  depth : List Level
deriving DecidableEq

/-- The fixed-shape record persisted per depth-level event (the `DTYPE` row
appended in `market_data_loop`): timestamp, security id, side, price,
quantity. -/
structure Record where
  ts : Int
  security_id : String
  side : String
  price : Rat
  qty : Int
deriving DecidableEq

/-- `RingBuffer.__init__`: backing store (np.empty of length `size`, contents
arbitrary), capacity, write index, full flag.  The NumPy array is modelled as
a Lean list of fixed length. -/
structure RingBuffer (α : Type) where
  buffer : List α
  size : Nat
  write_idx : Nat
  full : Bool
deriving DecidableEq

/-- A freshly constructed ring buffer over an arbitrary initial backing store
`init` (np.empty yields uninitialized memory). -/
def RingBuffer.mkInit (size : Nat) (init : List α) : RingBuffer α :=
  { buffer := init, size := size, write_idx := 0, full := false }

/-- `RingBuffer.append`: write the row at `write_idx`, advance
`write_idx = (write_idx + 1) % size`, set `full` the first time the index
wraps to 0. -/
def RingBuffer.append (rb : RingBuffer α) (row : α) : RingBuffer α :=
  let buffer := rb.buffer.set rb.write_idx row
  let write_idx := (rb.write_idx + 1) % rb.size
  { buffer := buffer, size := rb.size, write_idx := write_idx,
    full := if write_idx = 0 then true else rb.full }

/-- `RingBuffer.linear_view`: if not full, the prefix `buffer[:write_idx]`;
if full, `buffer[write_idx:] ++ buffer[:write_idx]` (oldest first across the
wrap boundary). -/
def RingBuffer.linear_view (rb : RingBuffer α) : List α :=
  if !rb.full then rb.buffer.take rb.write_idx
  else rb.buffer.drop rb.write_idx ++ rb.buffer.take rb.write_idx

/-- The `linear_view` method as a state transformer.  Its Python body performs
only reads (slicing and `np.concatenate` allocate fresh arrays and assign no
attribute of `self`), so the state component is returned unchanged. -/
def RingBuffer.linear_view_call (rb : RingBuffer α) : List α × RingBuffer α :=
  (rb.linear_view, rb)

/-- Appending a whole sequence of rows in order. -/
def RingBuffer.appendAll (rb : RingBuffer α) (xs : List α) : RingBuffer α :=
  xs.foldl RingBuffer.append rb

/-- The ring buffer reached from a fresh buffer (backing store `init`,
capacity `C`) by appending the history `xs` in order. -/
def ringOf (C : Nat) (init : List α) (xs : List α) : RingBuffer α :=
  (RingBuffer.mkInit C init).appendAll xs

/-- Structural well-formedness maintained by construction: the backing store
has exactly `size` slots and the write index is in range. -/
def RingBuffer.wf (rb : RingBuffer α) : Prop :=
  rb.buffer.length = rb.size ∧ rb.write_idx < rb.size

theorem RingBuffer.append_size (rb : RingBuffer α) (x : α) :
    (rb.append x).size = rb.size := rfl

theorem RingBuffer.append_buffer (rb : RingBuffer α) (x : α) :
    (rb.append x).buffer = rb.buffer.set rb.write_idx x := rfl

theorem RingBuffer.append_write_idx (rb : RingBuffer α) (x : α) :
    (rb.append x).write_idx = (rb.write_idx + 1) % rb.size := rfl

theorem RingBuffer.append_full (rb : RingBuffer α) (x : α) :
    (rb.append x).full =
      (if (rb.write_idx + 1) % rb.size = 0 then true else rb.full) := rfl

theorem RingBuffer.full_mono_append (rb : RingBuffer α) (x : α)
    (h : rb.full = true) : (rb.append x).full = true := by
  rw [RingBuffer.append_full]
  split <;> simp [h]

theorem RingBuffer.wf_append (rb : RingBuffer α) (x : α) (h : rb.wf) :
    (rb.append x).wf := by
  obtain ⟨h1, h2⟩ := h
  refine ⟨by simp [RingBuffer.append_buffer, RingBuffer.append_size, h1], ?_⟩
  rw [RingBuffer.append_write_idx, RingBuffer.append_size]
  exact Nat.mod_lt _ (by omega)

theorem RingBuffer.length_linear_view (rb : RingBuffer α)
    (h1 : rb.buffer.length = rb.size) (h2 : rb.write_idx ≤ rb.size) :
    rb.linear_view.length = if rb.full then rb.size else rb.write_idx := by
  cases hf : rb.full <;> simp [RingBuffer.linear_view, hf, h1] <;> omega

theorem RingBuffer.linear_view_of_not_full (rb : RingBuffer α) (h : rb.full = false) :
    rb.linear_view = rb.buffer.take rb.write_idx := by
  simp [RingBuffer.linear_view, h]

theorem RingBuffer.linear_view_of_full (rb : RingBuffer α) (h : rb.full = true) :
    rb.linear_view = rb.buffer.drop rb.write_idx ++ rb.buffer.take rb.write_idx := by
  simp [RingBuffer.linear_view, h]

/-- One `append` extends the linearized view by the new row, dropping the
oldest record first when the buffer is already full. -/
theorem RingBuffer.linear_view_append (rb : RingBuffer α) (x : α)
    (h1 : rb.buffer.length = rb.size) (h2 : rb.write_idx < rb.size) :
    (rb.append x).linear_view =
      (if rb.full then rb.linear_view.drop 1 else rb.linear_view) ++ [x] := by
  have hset : (rb.append x).buffer =
      rb.buffer.take rb.write_idx ++ x :: rb.buffer.drop (rb.write_idx + 1) := by
    rw [RingBuffer.append_buffer, List.set_eq_take_cons_drop _ (by omega)]
  have hlentake : (rb.buffer.take rb.write_idx).length = rb.write_idx := by
    simp; omega
  have hsub1 : rb.write_idx + 1 - rb.write_idx = 1 := by omega
  have htake1 : (rb.append x).buffer.take (rb.write_idx + 1) =
      rb.buffer.take rb.write_idx ++ [x] := by
    rw [hset, List.take_append_eq_append_take, hlentake,
      List.take_of_length_le (by omega), hsub1]
    rfl
  have hdrop1 : (rb.append x).buffer.drop (rb.write_idx + 1) =
      rb.buffer.drop (rb.write_idx + 1) := by
    rw [hset, List.drop_append_eq_append_drop, List.drop_of_length_le (by omega),
      hlentake, hsub1]
    rfl
  rcases Nat.lt_or_ge (rb.write_idx + 1) rb.size with hw | hw
  · -- no wrap: the write index advances to `write_idx + 1`
    have hidx : (rb.append x).write_idx = rb.write_idx + 1 := by
      rw [RingBuffer.append_write_idx, Nat.mod_eq_of_lt hw]
    have hfulleq : (rb.append x).full = rb.full := by
      rw [RingBuffer.append_full, Nat.mod_eq_of_lt hw]
      rw [if_neg (by omega)]
    cases hf : rb.full
    · rw [if_neg Bool.false_ne_true,
        RingBuffer.linear_view_of_not_full _ (hfulleq.trans hf),
        RingBuffer.linear_view_of_not_full rb hf, hidx, htake1]
    · rw [if_pos rfl,
        RingBuffer.linear_view_of_full _ (hfulleq.trans hf),
        RingBuffer.linear_view_of_full rb hf, hidx, htake1, hdrop1,
        List.drop_append_eq_append_drop]
      have hz : 1 - (rb.buffer.drop rb.write_idx).length = 0 := by simp; omega
      rw [hz, List.drop_zero, List.drop_drop, List.append_assoc]
  · -- wrap: the write index returns to 0 and `full` is set
    have hsz : rb.write_idx + 1 = rb.size := by omega
    have hidx : (rb.append x).write_idx = 0 := by
      rw [RingBuffer.append_write_idx, hsz, Nat.mod_self]
    have hfull2 : (rb.append x).full = true := by
      rw [RingBuffer.append_full, hsz, Nat.mod_self]
      simp
    have hdropC : rb.buffer.drop (rb.write_idx + 1) = [] := by
      apply List.drop_of_length_le; omega
    have hbuf : (rb.append x).buffer = rb.buffer.take rb.write_idx ++ [x] := by
      rw [hset, hdropC]
    have hlhs : (rb.append x).linear_view = rb.buffer.take rb.write_idx ++ [x] := by
      rw [RingBuffer.linear_view_of_full _ hfull2, hidx, List.drop_zero, List.take_zero,
        List.append_nil, hbuf]
    cases hf : rb.full
    · rw [if_neg Bool.false_ne_true, RingBuffer.linear_view_of_not_full rb hf, hlhs]
    · rw [if_pos rfl, RingBuffer.linear_view_of_full rb hf, hlhs,
        List.drop_append_eq_append_drop]
      have hlend : (rb.buffer.drop rb.write_idx).length = 1 := by simp; omega
      rw [hlend, List.drop_drop, hdropC]
      simp

theorem RingBuffer.appendAll_append (rb : RingBuffer α) (xs : List α) (x : α) :
    rb.appendAll (xs ++ [x]) = (rb.appendAll xs).append x := by
  simp [RingBuffer.appendAll, List.foldl_append]

theorem RingBuffer.appendAll_app (rb : RingBuffer α) (xs ys : List α) :
    rb.appendAll (xs ++ ys) = (rb.appendAll xs).appendAll ys := by
  simp [RingBuffer.appendAll, List.foldl_append]

theorem RingBuffer.wf_appendAll (rb : RingBuffer α) (xs : List α) (h : rb.wf) :
    (rb.appendAll xs).wf := by
  induction xs generalizing rb with
  | nil => exact h
  | cons x xs ih => exact ih (rb.append x) (rb.wf_append x h)

/-- Closed-form state of a ring buffer built by appending the history `xs` to
a fresh buffer of capacity `C`: the write index is `|xs| % C`, the buffer is
full exactly once `C` records have been appended, and the linearized view is
the whole history while it fits, and the last `C` records (oldest first)
afterwards. -/
theorem ringOf_state (C : Nat) (hC : 0 < C) (init : List α) (hinit : init.length = C)
    (xs : List α) :
    (ringOf C init xs).size = C ∧
    (ringOf C init xs).buffer.length = C ∧
    (ringOf C init xs).write_idx = xs.length % C ∧
    (ringOf C init xs).full = decide (C ≤ xs.length) ∧
    (ringOf C init xs).linear_view =
      (if xs.length ≤ C then xs else xs.drop (xs.length - C)) := by
  induction xs using List.reverseRecOn with
  | nil =>
      refine ⟨rfl, hinit, by simp [ringOf, RingBuffer.appendAll, RingBuffer.mkInit], ?_, ?_⟩
      · have : ¬ (C ≤ 0) := by omega
        simp [ringOf, RingBuffer.appendAll, RingBuffer.mkInit, this]
      · simp [ringOf, RingBuffer.appendAll, RingBuffer.mkInit, RingBuffer.linear_view]
  | append_singleton xs x ih =>
      obtain ⟨hs, hb, hw, hf, hv⟩ := ih
      have hstep : ringOf C init (xs ++ [x]) = (ringOf C init xs).append x :=
        RingBuffer.appendAll_append _ xs x
      set rb := ringOf C init xs with hrb
      have hblen : rb.buffer.length = rb.size := hb.trans hs.symm
      have hwlt : rb.write_idx < rb.size := by rw [hw, hs]; exact Nat.mod_lt _ hC
      have hlen : (xs ++ [x]).length = xs.length + 1 := by simp
      refine ⟨?_, ?_, ?_, ?_, ?_⟩
      · rw [hstep, RingBuffer.append_size, hs]
      · rw [hstep, RingBuffer.append_buffer]
        simpa using hb
      · rw [hstep, RingBuffer.append_write_idx, hw, hs, Nat.mod_add_mod, hlen]
      · rw [hstep, RingBuffer.append_full, hw, hs, hlen]
        rcases Nat.lt_or_ge xs.length C with hlt | hge
        · have hmod : xs.length % C = xs.length := Nat.mod_eq_of_lt hlt
          rw [hf, hmod]
          rcases Nat.lt_or_ge (xs.length + 1) C with hlt2 | hge2
          · rw [Nat.mod_eq_of_lt hlt2, if_neg (by omega)]
            have h1 : ¬ (C ≤ xs.length) := by omega
            have h2 : ¬ (C ≤ xs.length + 1) := by omega
            simp [h1, h2]
          · have he : xs.length + 1 = C := by omega
            rw [he, Nat.mod_self, if_pos rfl]
            have h2 : C ≤ xs.length + 1 := by omega
            rw [← he]
            simp [h2]
        · have h1 : decide (C ≤ xs.length) = true := by simp [hge]
          have h2 : decide (C ≤ xs.length + 1) = true := by simp; omega
          rw [hf, h1, h2]
          split <;> rfl
      · rw [hstep, RingBuffer.linear_view_append rb x hblen hwlt]
        rcases Nat.lt_or_ge xs.length C with hlt | hge
        · have hffalse : rb.full = false := by rw [hf]; simp; omega
          rw [hffalse, if_neg Bool.false_ne_true, hv, if_pos (by omega),
            if_pos (by rw [hlen]; omega)]
        · have hftrue : rb.full = true := by rw [hf]; simp [hge]
          have hv' : rb.linear_view = xs.drop (xs.length - C) := by
            rcases Nat.eq_or_lt_of_le hge with heq | hlt2
            · rw [hv, if_pos (by omega), ← heq, Nat.sub_self, List.drop_zero]
            · rw [hv, if_neg (by omega)]
          rw [hftrue, if_pos rfl, hv', List.drop_drop,
            if_neg (by rw [hlen]; omega), hlen]
          have e1 : xs.length + 1 - C = xs.length - C + 1 := by omega
          rw [e1, List.drop_append_eq_append_drop]
          have e2 : xs.length - C + 1 - xs.length = 0 := by omega
          rw [e2, List.drop_zero]

/-- Python slice `l[a:b]` for non-negative bounds (clamping like Python). -/
def pySlice (l : List α) (a b : Nat) : List α := (l.take b).drop a

/-- `BASE_DIR` constant of the source. -/
def BASE_DIR : String := "market_data"

/-- `INSTRUMENT` constant of the source. -/
def INSTRUMENT : String := "NIFTY_FUT"

/-- The wall-clock strings a flush tick observes: `datetime.now()` formatted
as calendar day (`%Y-%m-%d`), time slot (`%H_%M`), and the compact stamp
(`%Y%m%d_%H%M`) used by the final-flush filename. -/
structure Now where
  today : String
  time_slot : String
  stamp : String
deriving DecidableEq

/-- The rolling bucket file for a tick's wall-clock time:
`os.path.join(BASE_DIR, INSTRUMENT, today, time_slot + ".parquet")`. -/
def bucketFilePath (now : Now) : FsPath :=
  [BASE_DIR, INSTRUMENT, now.today, now.time_slot ++ ".parquet"]

/-- The dedicated final-flush file:
`f"{INSTRUMENT}_{now:%Y%m%d_%H%M}_FINAL.parquet"` (a bare filename). -/
def finalFilePath (now : Now) : FsPath :=
  [INSTRUMENT ++ "_" ++ now.stamp ++ "_FINAL.parquet"]

/-- Observable I/O effects of the flush/shutdown paths: closing a writer,
opening a writer for a file, appending a table of rows to the open writer's
file, and the one-shot final write. -/
inductive Ev (α : Type) where
  | closed (path : FsPath)
  | opened (path : FsPath)
  | wrote (path : FsPath) (rows : List α)
  | wroteFinal (path : FsPath) (rows : List α)
deriving DecidableEq

/-- The rows appended to rolling bucket files, with their target file. -/
def writesOf (evs : List (Ev α)) : List (FsPath × List α) :=
  evs.filterMap fun e =>
    match e with
    | .wrote p r => some (p, r)
    | _ => none

/-- The rows written by the shutdown path's final flush, with their file. -/
def finalWritesOf (evs : List (Ev α)) : List (FsPath × List α) :=
  evs.filterMap fun e =>
    match e with
    | .wroteFinal p r => some (p, r)
    | _ => none

/-- The writers closed, in order. -/
def closesOf (evs : List (Ev α)) : List FsPath :=
  evs.filterMap fun e =>
    match e with
    | .closed p => some p
    | _ => none

/-- The writers opened, in order. -/
def opensOf (evs : List (Ev α)) : List FsPath :=
  evs.filterMap fun e =>
    match e with
    | .opened p => some p
    | _ => none

/-- `MarketRecorder.__init__` state: the ring, the flush cursor
`last_flush_idx`, the open incremental writer (modelled by the path it was
opened with, `None` if closed), and `current_file_path`. -/
structure MarketRecorder (α : Type) where
  ring : RingBuffer α
  last_flush_idx : Nat
  parquet_writer : Option FsPath
  current_file_path : Option FsPath
deriving DecidableEq

/-- A freshly constructed recorder (`last_flush_idx = 0`, no writer, no
current file), over a ring built from backing store `init`. -/
def MarketRecorder.mkFresh (C : Nat) (init : List α) : MarketRecorder α :=
  { ring := RingBuffer.mkInit C init, last_flush_idx := 0,
    parquet_writer := none, current_file_path := none }

/-- One iteration of the `parquet_flush` loop body (after the sleep), at
wall-clock time `now`.  `writeOk` tells whether the `write_table` call
succeeds; when it fails the exception propagates, and the `.error` branch
carries the state and events as they stand at the raise point — notably
`last_flush_idx` was already reassigned on line 103, before the write on
line 128. -/
def MarketRecorder.parquet_flush_tick (s : MarketRecorder α) (now : Now)
    (writeOk : Bool) :
    Except (MarketRecorder α × List (Ev α)) (MarketRecorder α × List (Ev α)) :=
  let data := s.ring.linear_view
  let total_rows := data.length
  if total_rows ≤ s.last_flush_idx then .ok (s, [])
  else
    let new_rows := pySlice data s.last_flush_idx total_rows
    let s1 : MarketRecorder α := { s with last_flush_idx := total_rows }
    let file_path := bucketFilePath now
    let rolled : MarketRecorder α × List (Ev α) :=
      if s1.parquet_writer.isNone ∨ s1.current_file_path ≠ some file_path then
        ({ s1 with parquet_writer := some file_path,
                   current_file_path := some file_path },
         (match s1.parquet_writer with
          | some p => [Ev.closed p]
          | none => []) ++ [Ev.opened file_path])
      else (s1, [])
    if writeOk then .ok (rolled.1, rolled.2 ++ [Ev.wrote file_path new_rows])
    else .error (rolled.1, rolled.2)

/-- The final flush of `run`'s cancellation handler (lines 152-163): write
`linear_view()[last_flush_idx:]` to the dedicated final file when anything
beyond the cursor exists, then close the still-open bucket writer.  The
Python code only calls `.close()` on the writer object; no attribute is
reassigned, so the state is returned unchanged. -/
def MarketRecorder.final_flush (s : MarketRecorder α) (now : Now) :
    MarketRecorder α × List (Ev α) :=
  let data := s.ring.linear_view
  let evs1 :=
    if s.last_flush_idx < data.length then
      [Ev.wroteFinal (finalFilePath now) (data.drop s.last_flush_idx)]
    else []
  let evs2 :=
    match s.parquet_writer with
    | some p => evs1 ++ [Ev.closed p]
    | none => evs1
  (s, evs2)

/-- The whole cancellation handler of `run` (lines 144-165): final flush,
then the bare `raise` re-raising the `CancelledError` — modelled by the
`Except.error` outcome. -/
def MarketRecorder.run_cancelled (s : MarketRecorder α) (now : Now) :
    MarketRecorder α × List (Ev α) × Except Unit Unit :=
  let p := s.final_flush now
  (p.1, p.2, Except.error ())

/-- The record built for one depth level of an update (lines 78-84):
instrument id (`str(update["security_id"])`), side (`update["type"]`), the
level's price and quantity, and the timestamp of the `time.time_ns()` call
made for this level. -/
def levelRecord (u : Update) (ts : Int) (l : Level) : Record :=
  { ts := ts, security_id := u.security_id, side := u.type,
    price := l.price, qty := l.quantity }

/-- The body of `market_data_loop`'s inner loop for one structured update:
non-`Bid`/`Ask` kinds are skipped (`continue`); otherwise one record per
depth level is appended in level order.  `clock` is the stream of values
returned by successive `time.time_ns()` calls and `t` counts the calls made
so far; each level makes its own call. -/
def MarketRecorder.process_update (s : MarketRecorder Record) (clock : Nat → Int)
    (t : Nat) (u : Update) : MarketRecorder Record × Nat :=
  if u.type = "Bid" ∨ u.type = "Ask" then
    u.depth.foldl
      (fun st l =>
        ({ st.1 with ring := st.1.ring.append (levelRecord u (clock st.2) l) },
         st.2 + 1))
      (s, t)
  else (s, t)

/-- Processing a chain of structured updates from one raw payload (the
`while remaining:` loop, with `remaining_data` chaining). -/
def process_chain (clock : Nat → Int) (s : MarketRecorder Record) (t : Nat) :
    List Update → MarketRecorder Record × Nat
  | [] => (s, t)
  | u :: rest =>
      let p := s.process_update clock t u
      process_chain clock p.1 p.2 rest

/-- The records an accepted update contributes, level by level: one record
per level, in level order, each built from its level and the clock value of
its own `time.time_ns()` call. -/
def recordsFrom (u : Update) (clock : Nat → Int) : Nat → List Level → List Record
  | _, [] => []
  | t, l :: ls => levelRecord u (clock t) l :: recordsFrom u clock (t + 1) ls

/-- The records an accepted update contributes, starting from the `t`-th
clock call. -/
def updateRecords (u : Update) (clock : Nat → Int) (t : Nat) : List Record :=
  recordsFrom u clock t u.depth

/-- The recorder operations that touch the shared state over its lifetime:
an ingest append, a read of the linearized view, a flush tick, the shutdown
final flush. -/
inductive Op (α : Type) where
  | append (x : α)
  | view
  | flushTick (now : Now) (writeOk : Bool)
  | shutdown (now : Now)

/-- The state carried by a flush-tick outcome, whether the tick returned
normally or raised out of the write. -/
def tickState (r : Except (MarketRecorder α × List (Ev α))
    (MarketRecorder α × List (Ev α))) : MarketRecorder α :=
  match r with
  | .ok p => p.1
  | .error p => p.1

/-- State reached after one operation (outputs discarded). -/
def MarketRecorder.step (s : MarketRecorder α) : Op α → MarketRecorder α
  | .append x => { s with ring := s.ring.append x }
  | .view => { s with ring := s.ring.linear_view_call.2 }
  | .flushTick now ok => tickState (s.parquet_flush_tick now ok)
  | .shutdown now => (s.final_flush now).1

/-- State reached after a sequence of operations. -/
def MarketRecorder.steps (s : MarketRecorder α) (ops : List (Op α)) :
    MarketRecorder α :=
  ops.foldl MarketRecorder.step s

/-- A flush tick never touches the ring itself (it only reads the view and
moves the cursor / writer). -/
theorem MarketRecorder.tick_ring (s : MarketRecorder α) (now : Now) (ok : Bool) :
    (tickState (s.parquet_flush_tick now ok)).ring = s.ring := by
  unfold MarketRecorder.parquet_flush_tick
  dsimp only
  split
  · rfl
  · cases ok
    · rw [if_neg Bool.false_ne_true]
      dsimp only [tickState]
      split <;> rfl
    · rw [if_pos rfl]
      dsimp only [tickState]
      split <;> rfl

theorem MarketRecorder.step_ring_eq_or_append (s : MarketRecorder α) (op : Op α) :
    (s.step op).ring = s.ring ∨ ∃ x, (s.step op).ring = s.ring.append x := by
  cases op with
  | append x => exact Or.inr ⟨x, rfl⟩
  | view => exact Or.inl rfl
  | flushTick now ok => exact Or.inl (MarketRecorder.tick_ring s now ok)
  | shutdown now => exact Or.inl rfl

theorem MarketRecorder.step_ring_wf (s : MarketRecorder α) (op : Op α)
    (h : s.ring.wf) : (s.step op).ring.wf := by
  rcases s.step_ring_eq_or_append op with he | ⟨x, he⟩
  · rw [he]; exact h
  · rw [he]; exact s.ring.wf_append x h

theorem MarketRecorder.step_ring_size (s : MarketRecorder α) (op : Op α) :
    (s.step op).ring.size = s.ring.size := by
  rcases s.step_ring_eq_or_append op with he | ⟨x, he⟩
  · rw [he]
  · rw [he]
    rfl

theorem MarketRecorder.step_full_mono (s : MarketRecorder α) (op : Op α)
    (h : s.ring.full = true) : (s.step op).ring.full = true := by
  rcases s.step_ring_eq_or_append op with he | ⟨x, he⟩
  · rw [he]; exact h
  · rw [he]; exact s.ring.full_mono_append x h

theorem RingBuffer.length_linear_view_append_ge (rb : RingBuffer α) (x : α)
    (h : rb.wf) : rb.linear_view.length ≤ (rb.append x).linear_view.length := by
  obtain ⟨h1, h2⟩ := h
  rw [rb.linear_view_append x h1 h2]
  cases hf : rb.full
  · simp
  · rw [if_pos rfl]
    have hlen : rb.linear_view.length = rb.size := by
      rw [RingBuffer.length_linear_view rb h1 (by omega), if_pos hf]
    simp [hlen]
    omega

@[simp] theorem writesOf_nil : writesOf ([] : List (Ev α)) = [] := rfl

@[simp] theorem writesOf_closed (p : FsPath) (t : List (Ev α)) :
    writesOf (Ev.closed p :: t) = writesOf t := rfl

@[simp] theorem writesOf_opened (p : FsPath) (t : List (Ev α)) :
    writesOf (Ev.opened p :: t) = writesOf t := rfl

@[simp] theorem writesOf_wrote (p : FsPath) (r : List α) (t : List (Ev α)) :
    writesOf (Ev.wrote p r :: t) = (p, r) :: writesOf t := rfl

@[simp] theorem writesOf_wroteFinal (p : FsPath) (r : List α) (t : List (Ev α)) :
    writesOf (Ev.wroteFinal p r :: t) = writesOf t := rfl

@[simp] theorem writesOf_append (a b : List (Ev α)) :
    writesOf (a ++ b) = writesOf a ++ writesOf b := by
  simp [writesOf]

@[simp] theorem finalWritesOf_nil : finalWritesOf ([] : List (Ev α)) = [] := rfl

@[simp] theorem finalWritesOf_closed (p : FsPath) (t : List (Ev α)) :
    finalWritesOf (Ev.closed p :: t) = finalWritesOf t := rfl

@[simp] theorem finalWritesOf_opened (p : FsPath) (t : List (Ev α)) :
    finalWritesOf (Ev.opened p :: t) = finalWritesOf t := rfl

@[simp] theorem finalWritesOf_wrote (p : FsPath) (r : List α) (t : List (Ev α)) :
    finalWritesOf (Ev.wrote p r :: t) = finalWritesOf t := rfl

@[simp] theorem finalWritesOf_wroteFinal (p : FsPath) (r : List α) (t : List (Ev α)) :
    finalWritesOf (Ev.wroteFinal p r :: t) = (p, r) :: finalWritesOf t := rfl

@[simp] theorem finalWritesOf_append (a b : List (Ev α)) :
    finalWritesOf (a ++ b) = finalWritesOf a ++ finalWritesOf b := by
  simp [finalWritesOf]

@[simp] theorem closesOf_nil : closesOf ([] : List (Ev α)) = [] := rfl

@[simp] theorem closesOf_closed (p : FsPath) (t : List (Ev α)) :
    closesOf (Ev.closed p :: t) = p :: closesOf t := rfl

@[simp] theorem closesOf_opened (p : FsPath) (t : List (Ev α)) :
    closesOf (Ev.opened p :: t) = closesOf t := rfl

@[simp] theorem closesOf_wrote (p : FsPath) (r : List α) (t : List (Ev α)) :
    closesOf (Ev.wrote p r :: t) = closesOf t := rfl

@[simp] theorem closesOf_wroteFinal (p : FsPath) (r : List α) (t : List (Ev α)) :
    closesOf (Ev.wroteFinal p r :: t) = closesOf t := rfl

@[simp] theorem closesOf_append (a b : List (Ev α)) :
    closesOf (a ++ b) = closesOf a ++ closesOf b := by
  simp [closesOf]

@[simp] theorem opensOf_nil : opensOf ([] : List (Ev α)) = [] := rfl

@[simp] theorem opensOf_closed (p : FsPath) (t : List (Ev α)) :
    opensOf (Ev.closed p :: t) = opensOf t := rfl

@[simp] theorem opensOf_opened (p : FsPath) (t : List (Ev α)) :
    opensOf (Ev.opened p :: t) = p :: opensOf t := rfl

@[simp] theorem opensOf_wrote (p : FsPath) (r : List α) (t : List (Ev α)) :
    opensOf (Ev.wrote p r :: t) = opensOf t := rfl

@[simp] theorem opensOf_wroteFinal (p : FsPath) (r : List α) (t : List (Ev α)) :
    opensOf (Ev.wroteFinal p r :: t) = opensOf t := rfl

@[simp] theorem opensOf_append (a b : List (Ev α)) :
    opensOf (a ++ b) = opensOf a ++ opensOf b := by
  simp [opensOf]

theorem MarketRecorder.step_view_len_mono (s : MarketRecorder α) (op : Op α)
    (h : s.ring.wf) :
    s.ring.linear_view.length ≤ (s.step op).ring.linear_view.length := by
  rcases s.step_ring_eq_or_append op with he | ⟨x, he⟩
  · rw [he]
  · rw [he]
    exact s.ring.length_linear_view_append_ge x h

/-- **C3.** For every capacity `C ≥ 1` and append sequence of length `n`:
if `n ≤ C`, `linear_view()` returns exactly the `n` appended records in
append order; if `n > C`, it returns exactly the last `C` appended records,
oldest first — whatever the initial contents of the backing store. -/
theorem claim_linear_view_exact (C : Nat) (hC : 0 < C) (init xs : List α)
    (hinit : init.length = C) :
    (xs.length ≤ C → (ringOf C init xs).linear_view = xs) ∧
    (C < xs.length →
      (ringOf C init xs).linear_view = xs.drop (xs.length - C)) := by
  obtain ⟨-, -, -, -, hv⟩ := ringOf_state C hC init hinit xs
  constructor
  · intro h
    rw [hv, if_pos h]
  · intro h
    rw [hv, if_neg (by omega)]

theorem claim_linear_view_exact_witness :
    (0 < 2 ∧ ([9, 9] : List Nat).length = 2 ∧ 2 < 3) ∧
      (ringOf 2 [9, 9] [1, 2, 3]).linear_view = [2, 3] :=
  ⟨by decide,
    (claim_linear_view_exact 2 (by decide) [9, 9] [1, 2, 3] (by decide)).2 (by decide)⟩

/-- **C9.** `linear_view()` is a pure read: calling it twice with no
intervening `append` returns identical sequences, and the call leaves
`write_idx`, `full` and the stored records untouched. -/
theorem claim_linear_view_idempotent (rb : RingBuffer α) :
    rb.linear_view_call.1 = rb.linear_view_call.2.linear_view_call.1 ∧
    rb.linear_view_call.2.write_idx = rb.write_idx ∧
    rb.linear_view_call.2.full = rb.full ∧
    rb.linear_view_call.2.buffer = rb.buffer ∧
    rb.linear_view_call.2 = rb :=
  ⟨rfl, rfl, rfl, rfl, rfl⟩

/-- **C10.** Over any operation sequence on a well-formed recorder state, the
capacity is preserved, a `full` flag once true never resets, the linearized
view's length never decreases, and from the first wrap onward it equals the
capacity. -/
theorem claim_full_flag_monotone (s : MarketRecorder α) (ops : List (Op α))
    (hwf : s.ring.wf) :
    (s.steps ops).ring.size = s.ring.size ∧
    (s.ring.full = true → (s.steps ops).ring.full = true) ∧
    s.ring.linear_view.length ≤ (s.steps ops).ring.linear_view.length ∧
    (s.ring.full = true →
      (s.steps ops).ring.linear_view.length = s.ring.size) := by
  induction ops generalizing s with
  | nil =>
      refine ⟨rfl, fun h => h, le_refl _, fun h => ?_⟩
      show s.ring.linear_view.length = s.ring.size
      rw [RingBuffer.length_linear_view _ hwf.1 (le_of_lt hwf.2), if_pos h]
  | cons op ops ih =>
      obtain ⟨ihs, ihf, ihl, ihfl⟩ := ih (s.step op) (s.step_ring_wf op hwf)
      have hsize := s.step_ring_size op
      have hsteps : s.steps (op :: ops) = (s.step op).steps ops := rfl
      rw [hsteps]
      refine ⟨ihs.trans hsize, fun h => ihf (s.step_full_mono op h),
        le_trans (s.step_view_len_mono op hwf) ihl, fun h => ?_⟩
      rw [ihfl (s.step_full_mono op h), hsize]

def nowW : Now := { today := "2026-02-03", time_slot := "09_15", stamp := "20260203_0915" }

def recFullW : MarketRecorder Nat :=
  { ring := { buffer := [5, 6], size := 2, write_idx := 0, full := true },
    last_flush_idx := 0, parquet_writer := none, current_file_path := none }

def opsW : List (Op Nat) :=
  [Op.append 7, Op.view, Op.flushTick nowW true, Op.shutdown nowW]

theorem claim_full_flag_monotone_witness :
    (recFullW.ring.wf ∧ recFullW.ring.full = true) ∧
    (recFullW.steps opsW).ring.linear_view.length = recFullW.ring.size :=
  ⟨⟨⟨by decide, by decide⟩, by decide⟩,
    (claim_full_flag_monotone recFullW opsW ⟨by decide, by decide⟩).2.2.2 (by decide)⟩

/-- **C2.** On a flush tick with `N` the current linearized view's length:
if `N ≤ last_flush_idx` the tick is a no-op (nothing written, state
unchanged) — this covers the never-appended case; otherwise exactly the
slice `view[last_flush_idx : N]` is written (not the whole view) and
`last_flush_idx` is set to `N`. -/
theorem claim_flush_noop_or_delta (s : MarketRecorder α) (now : Now) :
    (s.ring.linear_view.length ≤ s.last_flush_idx →
      s.parquet_flush_tick now true = .ok (s, [])) ∧
    (s.last_flush_idx < s.ring.linear_view.length →
      ∃ s' evs, s.parquet_flush_tick now true = .ok (s', evs) ∧
        writesOf evs =
          [(bucketFilePath now,
            pySlice s.ring.linear_view s.last_flush_idx
              s.ring.linear_view.length)] ∧
        s'.last_flush_idx = s.ring.linear_view.length ∧
        s'.ring = s.ring) := by
  constructor
  · intro h
    unfold MarketRecorder.parquet_flush_tick
    dsimp only
    rw [if_pos h]
  · intro h
    unfold MarketRecorder.parquet_flush_tick
    dsimp only
    rw [if_neg (by omega), if_pos rfl]
    split
    · refine ⟨_, _, rfl, ?_, rfl, rfl⟩
      rcases s.parquet_writer with _ | p <;> simp
    · exact ⟨_, _, rfl, by simp, rfl, rfl⟩

def recW : MarketRecorder Nat :=
  { ring := ringOf 2 [0, 0] [5], last_flush_idx := 0,
    parquet_writer := none, current_file_path := none }

theorem claim_flush_noop_or_delta_witness :
    recW.last_flush_idx < recW.ring.linear_view.length ∧
    (∃ s' evs, recW.parquet_flush_tick nowW true = .ok (s', evs) ∧
      writesOf evs =
        [(bucketFilePath nowW,
          pySlice recW.ring.linear_view recW.last_flush_idx
            recW.ring.linear_view.length)] ∧
      s'.last_flush_idx = recW.ring.linear_view.length ∧
      s'.ring = recW.ring) :=
  ⟨by decide, (claim_flush_noop_or_delta recW nowW).2 (by decide)⟩

/-- **C6.** On a flush tick with a non-empty delta: when no writer is open
or the open writer's bucket path differs from the path computed from the
tick's wall clock, the old writer (if any) is closed exactly once, before
the new bucket's writer is opened; the delta is written in a single append
to exactly one bucket file — the one determined by the tick's clock `now`,
not by any record's own timestamp.  `hsync` states that `current_file_path`
mirrors the open writer, which holds for every reachable state since both
fields are assigned together. -/
theorem claim_bucket_rollover (s : MarketRecorder α) (now : Now)
    (hsync : s.current_file_path = s.parquet_writer)
    (hN : s.last_flush_idx < s.ring.linear_view.length) :
    ∃ s' evs, s.parquet_flush_tick now true = .ok (s', evs) ∧
      evs = (match s.parquet_writer with
             | none => [Ev.opened (bucketFilePath now)]
             | some p =>
               if p = bucketFilePath now then ([] : List (Ev α))
               else [Ev.closed p, Ev.opened (bucketFilePath now)]) ++
        [Ev.wrote (bucketFilePath now)
          (pySlice s.ring.linear_view s.last_flush_idx
            s.ring.linear_view.length)] ∧
      s'.parquet_writer = some (bucketFilePath now) ∧
      s'.current_file_path = some (bucketFilePath now) := by
  unfold MarketRecorder.parquet_flush_tick
  dsimp only
  rw [if_neg (by omega), if_pos rfl]
  rcases hw : s.parquet_writer with _ | p
  · rw [hsync, hw, if_pos (by simp)]
    exact ⟨_, _, rfl, by simp, rfl, rfl⟩
  · rw [hsync, hw]
    by_cases hp : p = bucketFilePath now
    · rw [hp, if_neg (by simp)]
      exact ⟨_, _, rfl, by simp, rfl, rfl⟩
    · rw [if_pos (by simp [hp])]
      exact ⟨_, _, rfl, by simp [hp], rfl, rfl⟩

def recRollW : MarketRecorder Nat :=
  { ring := ringOf 2 [0, 0] [5], last_flush_idx := 0,
    parquet_writer := some ["stale", "bucket.parquet"],
    current_file_path := some ["stale", "bucket.parquet"] }

theorem claim_bucket_rollover_witness :
    (recRollW.current_file_path = recRollW.parquet_writer ∧
      recRollW.last_flush_idx < recRollW.ring.linear_view.length) ∧
    (∃ s' evs, recRollW.parquet_flush_tick nowW true = .ok (s', evs) ∧
      evs = (match recRollW.parquet_writer with
             | none => [Ev.opened (bucketFilePath nowW)]
             | some p =>
               if p = bucketFilePath nowW then ([] : List (Ev Nat))
               else [Ev.closed p, Ev.opened (bucketFilePath nowW)]) ++
        [Ev.wrote (bucketFilePath nowW)
          (pySlice recRollW.ring.linear_view recRollW.last_flush_idx
            recRollW.ring.linear_view.length)] ∧
      s'.parquet_writer = some (bucketFilePath nowW) ∧
      s'.current_file_path = some (bucketFilePath nowW)) :=
  ⟨⟨by decide, by decide⟩,
    claim_bucket_rollover recRollW nowW (by decide) (by decide)⟩

theorem recordsFrom_length (u : Update) (clock : Nat → Int) :
    ∀ (d : List Level) (t : Nat), (recordsFrom u clock t d).length = d.length
  | [], _ => rfl
  | _ :: ls, t => by
      simp [recordsFrom, recordsFrom_length u clock ls (t + 1)]

theorem recordsFrom_get (u : Update) (clock : Nat → Int) :
    ∀ (d : List Level) (t i : Nat) (h : i < d.length)
      (h' : i < (recordsFrom u clock t d).length),
      (recordsFrom u clock t d).get ⟨i, h'⟩ =
        levelRecord u (clock (t + i)) (d.get ⟨i, h⟩)
  | l :: ls, t, 0, _, _ => rfl
  | l :: ls, t, i + 1, h, h' => by
      have hi : i < ls.length := by
        simp at h
        omega
      have hi' : i < (recordsFrom u clock (t + 1) ls).length := by
        rw [recordsFrom_length u clock ls (t + 1)]
        exact hi
      have hs : (recordsFrom u clock t (l :: ls)).get ⟨i + 1, h'⟩ =
          (recordsFrom u clock (t + 1) ls).get ⟨i, hi'⟩ := rfl
      rw [hs, recordsFrom_get u clock ls (t + 1) i hi hi']
      have he : t + 1 + i = t + (i + 1) := by omega
      rw [he]
      rfl

theorem process_fold_eq (u : Update) (clock : Nat → Int) :
    ∀ (d : List Level) (s : MarketRecorder Record) (t : Nat),
      d.foldl
        (fun st l =>
          ({ st.1 with ring := st.1.ring.append (levelRecord u (clock st.2) l) },
            st.2 + 1))
        (s, t) =
      ({ s with ring := s.ring.appendAll (recordsFrom u clock t d) },
        t + d.length)
  | [], s, t => rfl
  | l :: d, s, t => by
      rw [List.foldl_cons, process_fold_eq u clock d _ (t + 1)]
      have hlen : t + 1 + d.length = t + (d.length + 1) := by omega
      rw [hlen]
      rfl

/-- **C7.** For an incoming `Bid`/`Ask` update with `k` depth levels, the
ingest loop appends exactly `k` records to the ring, one per level in level
order; record `i` carries the update's instrument id, its side, level `i`'s
price and quantity, and the timestamp of its own clock call. -/
theorem claim_ingest_per_level (s : MarketRecorder Record) (clock : Nat → Int)
    (t : Nat) (u : Update) (h : u.type = "Bid" ∨ u.type = "Ask") :
    s.process_update clock t u =
      ({ s with ring := s.ring.appendAll (updateRecords u clock t) },
        t + u.depth.length) ∧
    (updateRecords u clock t).length = u.depth.length ∧
    (∀ (i : Nat) (hd : i < u.depth.length)
        (hr : i < (updateRecords u clock t).length),
      (updateRecords u clock t).get ⟨i, hr⟩ =
        { ts := clock (t + i), security_id := u.security_id, side := u.type,
          price := (u.depth.get ⟨i, hd⟩).price,
          qty := (u.depth.get ⟨i, hd⟩).quantity }) := by
  refine ⟨?_, recordsFrom_length u clock u.depth t, fun i hd hr => ?_⟩
  · unfold MarketRecorder.process_update
    rw [if_pos h]
    exact process_fold_eq u clock u.depth s t
  · exact recordsFrom_get u clock u.depth t i hd hr

def recEmptyW : MarketRecorder Record :=
  { ring := RingBuffer.mkInit 4
      [{ ts := 0, security_id := "", side := "", price := 0, qty := 0 },
       { ts := 0, security_id := "", side := "", price := 0, qty := 0 },
       { ts := 0, security_id := "", side := "", price := 0, qty := 0 },
       { ts := 0, security_id := "", side := "", price := 0, qty := 0 }],
    last_flush_idx := 0, parquet_writer := none, current_file_path := none }

def updBidW : Update :=
  { type := "Bid", security_id := "SEC1",
    depth := [{ price := 10, quantity := 3 }, { price := 9, quantity := 7 }] }

theorem claim_ingest_per_level_witness :
    (updBidW.type = "Bid" ∨ updBidW.type = "Ask") ∧
    recEmptyW.process_update (fun n => (n : Int)) 0 updBidW =
      ({ recEmptyW with
          ring := recEmptyW.ring.appendAll
            (updateRecords updBidW (fun n => (n : Int)) 0) },
        0 + updBidW.depth.length) :=
  ⟨Or.inl rfl,
    (claim_ingest_per_level recEmptyW (fun n => (n : Int)) 0 updBidW (Or.inl rfl)).1⟩

/-- **C8.** An update whose kind is neither `Bid` nor `Ask` contributes zero
records: the recorder state and clock counter are unchanged and the inner
loop simply moves on to the next chained payload (no exception is raised —
the embedding of the loop body is a total function). -/
theorem claim_skip_non_bid_ask (s : MarketRecorder Record) (clock : Nat → Int)
    (t : Nat) (u : Update) (rest : List Update)
    (h : u.type ≠ "Bid" ∧ u.type ≠ "Ask") :
    s.process_update clock t u = (s, t) ∧
    process_chain clock s t (u :: rest) = process_chain clock s t rest := by
  have h1 : ¬ (u.type = "Bid" ∨ u.type = "Ask") := by tauto
  have h2 : s.process_update clock t u = (s, t) := by
    unfold MarketRecorder.process_update
    rw [if_neg h1]
  refine ⟨h2, ?_⟩
  show process_chain clock (s.process_update clock t u).1
      (s.process_update clock t u).2 rest = process_chain clock s t rest
  rw [h2]

def updQuoteW : Update :=
  { type := "Quote", security_id := "SEC1",
    depth := [{ price := 10, quantity := 3 }] }

theorem claim_skip_non_bid_ask_witness :
    (updQuoteW.type ≠ "Bid" ∧ updQuoteW.type ≠ "Ask") ∧
    recEmptyW.process_update (fun n => (n : Int)) 0 updQuoteW = (recEmptyW, 0) ∧
    process_chain (fun n => (n : Int)) recEmptyW 0 [updQuoteW, updBidW] =
      process_chain (fun n => (n : Int)) recEmptyW 0 [updBidW] :=
  ⟨⟨by decide, by decide⟩,
    (claim_skip_non_bid_ask recEmptyW (fun n => (n : Int)) 0 updQuoteW [updBidW]
      ⟨by decide, by decide⟩).1,
    (claim_skip_non_bid_ask recEmptyW (fun n => (n : Int)) 0 updQuoteW [updBidW]
      ⟨by decide, by decide⟩).2⟩

/-- **C5 is violated by the code**: `parquet_flush` assigns
`last_flush_idx = total_rows` (line 103) before the `write_table` call
(line 128).  Concretely: a recorder holding one unflushed record whose
write fails raises with the cursor already advanced to 1, although nothing
was written — the unflushed delta is silently dropped. -/
theorem flush_write_failure_advances_cursor :
    recW.parquet_flush_tick nowW false =
      .error ({ ring := ringOf 2 [0, 0] [5], last_flush_idx := 1,
                parquet_writer := some (bucketFilePath nowW),
                current_file_path := some (bucketFilePath nowW) },
              [Ev.opened (bucketFilePath nowW)]) ∧
    recW.last_flush_idx = 0 ∧
    writesOf [Ev.opened (bucketFilePath nowW)] = ([] : List (FsPath × List Nat)) := by
  refine ⟨?_, rfl, rfl⟩
  rfl

/-- A flush tick with nothing new (`N ≤ last_flush_idx`) returns without
writing and without touching the state. -/
theorem flushTick_noop (s : MarketRecorder α) (now : Now) (ok : Bool)
    (h : s.ring.linear_view.length ≤ s.last_flush_idx) :
    s.parquet_flush_tick now ok = .ok (s, []) := by
  unfold MarketRecorder.parquet_flush_tick
  dsimp only
  rw [if_pos h]

/-- Closed form of a firing flush tick with a succeeding write. -/
theorem flushTick_fires_eq (s : MarketRecorder α) (now : Now)
    (hN : s.last_flush_idx < s.ring.linear_view.length) :
    s.parquet_flush_tick now true =
      .ok (if s.parquet_writer.isNone = true ∨
              s.current_file_path ≠ some (bucketFilePath now) then
            ({ s with last_flush_idx := s.ring.linear_view.length,
                      parquet_writer := some (bucketFilePath now),
                      current_file_path := some (bucketFilePath now) },
             (match s.parquet_writer with
              | some p => [Ev.closed p]
              | none => []) ++
               [Ev.opened (bucketFilePath now),
                Ev.wrote (bucketFilePath now)
                  (pySlice s.ring.linear_view s.last_flush_idx
                    s.ring.linear_view.length)])
           else
            ({ s with last_flush_idx := s.ring.linear_view.length },
             [Ev.wrote (bucketFilePath now)
                (pySlice s.ring.linear_view s.last_flush_idx
                  s.ring.linear_view.length)])) := by
  unfold MarketRecorder.parquet_flush_tick
  dsimp only
  rw [if_neg (by omega), if_pos rfl]
  by_cases hcond : s.parquet_writer.isNone = true ∨
      s.current_file_path ≠ some (bucketFilePath now)
  · rw [if_pos hcond, if_pos hcond]
    simp
  · rw [if_neg hcond, if_neg hcond]
    rfl

theorem ringOf_append (C : Nat) (init xs ys : List α) :
    ringOf C init (xs ++ ys) = (ringOf C init xs).appendAll ys :=
  RingBuffer.appendAll_app _ xs ys

theorem ringOf_view_length (C : Nat) (hC : 0 < C) (init : List α)
    (hinit : init.length = C) (xs : List α) :
    (ringOf C init xs).linear_view.length = min xs.length C := by
  obtain ⟨-, -, -, -, hv⟩ := ringOf_state C hC init hinit xs
  rw [hv]
  split
  · omega
  · simp
    omega

theorem pySlice_append_all (xs ys : List α) :
    pySlice (xs ++ ys) xs.length (xs ++ ys).length = ys := by
  unfold pySlice
  rw [List.take_of_length_le (le_refl _), List.drop_left]

/-- After a tick that left the cursor at `|xs|` over the unwrapped history
`xs`, a window `ys` of appends that keeps the total within capacity makes
the next tick write exactly `ys`. -/
theorem second_tick_writes_window (C : Nat) (hC : 0 < C) (init xs ys : List α)
    (hinit : init.length = C) (htot : xs.length + ys.length ≤ C) (now2 : Now)
    (s1 : MarketRecorder α) (hcur : s1.last_flush_idx = xs.length)
    (hring : s1.ring = ringOf C init xs) :
    ∃ s2' evs2,
      ({ s1 with ring := s1.ring.appendAll ys }).parquet_flush_tick now2 true
        = .ok (s2', evs2) ∧
      writesOf evs2 = (if ys.isEmpty then [] else [(bucketFilePath now2, ys)]) := by
  obtain ⟨r1, c1, w1, p1⟩ := s1
  dsimp only at hcur hring ⊢
  subst hcur
  subst hring
  have hv1 : (ringOf C init xs).linear_view = xs := by
    obtain ⟨-, -, -, -, hv⟩ := ringOf_state C hC init hinit xs
    rw [hv, if_pos (by omega)]
  rcases ys with _ | ⟨y, ys'⟩
  · refine ⟨_, _, flushTick_noop _ now2 true ?_, by simp⟩
    dsimp only
    rw [show (ringOf C init xs).appendAll [] = ringOf C init xs from rfl, hv1]
  · have hr2 : (ringOf C init xs).appendAll (y :: ys') =
        ringOf C init (xs ++ y :: ys') := (ringOf_append C init xs (y :: ys')).symm
    have hv2 : (ringOf C init (xs ++ y :: ys')).linear_view = xs ++ y :: ys' := by
      obtain ⟨-, -, -, -, hv⟩ := ringOf_state C hC init hinit (xs ++ y :: ys')
      rw [hv, if_pos (by simp at htot ⊢; omega)]
    have hslice : pySlice ((ringOf C init xs).appendAll (y :: ys')).linear_view
        xs.length ((ringOf C init xs).appendAll (y :: ys')).linear_view.length
        = y :: ys' := by
      rw [hr2, hv2]
      exact pySlice_append_all xs (y :: ys')
    have hN : (({ ring := (ringOf C init xs).appendAll (y :: ys'),
                  last_flush_idx := xs.length,
                  parquet_writer := w1,
                  current_file_path := p1 } : MarketRecorder α)).last_flush_idx <
        (({ ring := (ringOf C init xs).appendAll (y :: ys'),
            last_flush_idx := xs.length,
            parquet_writer := w1,
            current_file_path := p1 } : MarketRecorder α)).ring.linear_view.length := by
      dsimp only
      rw [hr2, hv2]
      simp
    have ht := flushTick_fires_eq _ now2 hN
    by_cases hcond : (({ ring := (ringOf C init xs).appendAll (y :: ys'),
                         last_flush_idx := xs.length,
                         parquet_writer := w1,
                         current_file_path := p1 } : MarketRecorder α)).parquet_writer.isNone
          = true ∨
        (({ ring := (ringOf C init xs).appendAll (y :: ys'),
            last_flush_idx := xs.length,
            parquet_writer := w1,
            current_file_path := p1 } : MarketRecorder α)).current_file_path ≠
          some (bucketFilePath now2)
    · rw [if_pos hcond] at ht
      refine ⟨_, _, ht, ?_⟩
      dsimp only
      rcases w1 with _ | q <;> simp [hslice]
    · rw [if_neg hcond] at ht
      refine ⟨_, _, ht, ?_⟩
      dsimp only
      simp [hslice]

/-- A firing flush tick advances the cursor to the view length and leaves
the ring untouched, whatever the writer state. -/
theorem flushTick_fires_facts (s : MarketRecorder α) (now : Now)
    (hN : s.last_flush_idx < s.ring.linear_view.length) :
    ∃ s' evs, s.parquet_flush_tick now true = .ok (s', evs) ∧
      s'.last_flush_idx = s.ring.linear_view.length ∧ s'.ring = s.ring := by
  have ht := flushTick_fires_eq s now hN
  by_cases hcond : s.parquet_writer.isNone = true ∨
      s.current_file_path ≠ some (bucketFilePath now)
  · rw [if_pos hcond] at ht
    exact ⟨_, _, ht, rfl, rfl⟩
  · rw [if_neg hcond] at ht
    exact ⟨_, _, ht, rfl, rfl⟩

/-- **C1 (amended).** Between two consecutive flush ticks, if the total
number of appends since the buffer was created — the pre-window history `xs`
plus the window `ys` — is at most the capacity `C` (so the buffer has not
wrapped by the second tick), then the second tick's flush delta is exactly
the window `ys`: every record appended in the window appears exactly once.
The original claim required only the window itself to be `≤ C`; the
counterexample shows a wrap then loses window records. -/
theorem claim_no_loss_window (C : Nat) (hC : 0 < C) (init xs ys : List α)
    (hinit : init.length = C) (now1 now2 : Now) (c0 : Nat)
    (w0 cp0 : Option FsPath) (hc0 : c0 ≤ xs.length)
    (htot : xs.length + ys.length ≤ C) :
    ∃ s1 evs1 s2' evs2,
      ({ ring := ringOf C init xs, last_flush_idx := c0,
         parquet_writer := w0, current_file_path := cp0 } :
        MarketRecorder α).parquet_flush_tick now1 true = .ok (s1, evs1) ∧
      s1.last_flush_idx = xs.length ∧
      s1.ring = ringOf C init xs ∧
      ({ s1 with ring := s1.ring.appendAll ys }).parquet_flush_tick now2 true
        = .ok (s2', evs2) ∧
      writesOf evs2 =
        (if ys.isEmpty then [] else [(bucketFilePath now2, ys)]) := by
  have hv1 : (ringOf C init xs).linear_view = xs := by
    obtain ⟨-, -, -, -, hv⟩ := ringOf_state C hC init hinit xs
    rw [hv, if_pos (by omega)]
  rcases Nat.eq_or_lt_of_le hc0 with heq | hlt
  · -- the first tick is a no-op: the cursor already sits at `|xs|`
    have hnoop := flushTick_noop
      ({ ring := ringOf C init xs, last_flush_idx := c0,
         parquet_writer := w0, current_file_path := cp0 } : MarketRecorder α)
      now1 true (by dsimp only; rw [hv1]; omega)
    obtain ⟨s2', evs2, ht2, hw2⟩ :=
      second_tick_writes_window C hC init xs ys hinit htot now2
        ({ ring := ringOf C init xs, last_flush_idx := c0,
           parquet_writer := w0, current_file_path := cp0 })
        (by exact heq) rfl
    exact ⟨_, _, s2', evs2, hnoop, by exact heq, rfl, ht2, hw2⟩
  · -- the first tick fires and advances the cursor to `|xs|`
    obtain ⟨s1, evs1, ht1, hc1, hr1⟩ := flushTick_fires_facts
      ({ ring := ringOf C init xs, last_flush_idx := c0,
         parquet_writer := w0, current_file_path := cp0 } : MarketRecorder α)
      now1 (by dsimp only; rw [hv1]; omega)
    have hc1' : s1.last_flush_idx = xs.length := by
      rw [hc1]
      show (ringOf C init xs).linear_view.length = xs.length
      rw [hv1]
    have hr1' : s1.ring = ringOf C init xs := hr1
    obtain ⟨s2', evs2, ht2, hw2⟩ :=
      second_tick_writes_window C hC init xs ys hinit htot now2 s1 hc1' hr1'
    exact ⟨s1, evs1, s2', evs2, ht1, hc1', hr1', ht2, hw2⟩

theorem claim_no_loss_window_witness :
    (0 < 3 ∧ ([0, 0, 0] : List Nat).length = 3 ∧ (0 : Nat) ≤ [1].length ∧
      ([1] : List Nat).length + ([2, 3] : List Nat).length ≤ 3) ∧
    (∃ s1 evs1 s2' evs2,
      ({ ring := ringOf 3 [0, 0, 0] [1], last_flush_idx := 0,
         parquet_writer := none, current_file_path := none } :
        MarketRecorder Nat).parquet_flush_tick nowW true = .ok (s1, evs1) ∧
      s1.last_flush_idx = ([1] : List Nat).length ∧
      s1.ring = ringOf 3 [0, 0, 0] [1] ∧
      ({ s1 with ring := s1.ring.appendAll [2, 3] }).parquet_flush_tick nowW true
        = .ok (s2', evs2) ∧
      writesOf evs2 =
        (if ([2, 3] : List Nat).isEmpty then []
         else [(bucketFilePath nowW, [2, 3])])) :=
  ⟨⟨by decide, by decide, by decide, by decide⟩,
    claim_no_loss_window 3 (by decide) [0, 0, 0] [1] [2, 3] (by decide)
      nowW nowW 0 none none (by decide) (by decide)⟩

/-- The events carried by a flush-tick outcome. -/
def tickEvents (r : Except (MarketRecorder α × List (Ev α))
    (MarketRecorder α × List (Ev α))) : List (Ev α) :=
  match r with
  | .ok p => p.2
  | .error p => p.2

def recC1 : MarketRecorder Nat :=
  { ring := ringOf 3 [0, 0, 0] [1, 2], last_flush_idx := 0,
    parquet_writer := none, current_file_path := none }

def recC1after : MarketRecorder Nat :=
  { tickState (recC1.parquet_flush_tick nowW true) with
    ring := (tickState (recC1.parquet_flush_tick nowW true)).ring.appendAll
      [3, 4] }

/-- **C1 as stated is false.**  Capacity 3; records `1, 2` are appended and
flushed by a first tick (cursor 2); the window appends records `3, 4` —
only 2 ≤ C = 3 appends — yet the second tick's delta is `[4]`: record `3`
never appears in any flush delta even though the window was within
capacity (the buffer wrapped, shifting the view under the position-based
cursor). -/
theorem claim_no_loss_window_counterexample :
    ([3, 4] : List Nat).length ≤ 3 ∧
    writesOf (tickEvents (recC1after.parquet_flush_tick nowW true)) =
      [(bucketFilePath nowW, [4])] ∧
    (3 : Nat) ∈ [3, 4] ∧ ¬ (3 : Nat) ∈ [4] := by
  refine ⟨by decide, ?_, by decide, by decide⟩
  rfl

/-- What the shutdown flush writes — the linearized view beyond the cursor —
consists only of records appended after the last regular flush: it is a
suffix of the window `ys`. -/
theorem view_drop_cursor_suffix (C : Nat) (hC : 0 < C) (init xs ys : List α)
    (hinit : init.length = C) :
    ∃ k, (ringOf C init (xs ++ ys)).linear_view.drop
        ((ringOf C init xs).linear_view.length) = ys.drop k := by
  rw [ringOf_view_length C hC init hinit xs]
  obtain ⟨-, -, -, -, hv2⟩ := ringOf_state C hC init hinit (xs ++ ys)
  rw [hv2]
  rcases le_or_lt (xs.length + ys.length) C with h2 | h2
  · rw [if_pos (by simp; omega), Nat.min_eq_left (by omega)]
    exact ⟨0, by rw [List.drop_left, List.drop_zero]⟩
  · rw [if_neg (by simp; omega)]
    rcases le_or_lt xs.length C with h3 | h3
    · rw [Nat.min_eq_left h3, List.drop_drop]
      refine ⟨xs.length + ys.length - C, ?_⟩
      rw [List.drop_append_eq_append_drop,
        List.drop_of_length_le (l := xs) (by omega), List.nil_append]
      congr 1
      simp
    · rw [Nat.min_eq_right (by omega)]
      have e1 : ((xs ++ ys).drop ((xs ++ ys).length - C)).drop C = [] := by
        apply List.drop_of_length_le
        simp
        omega
      have e2 : ys.drop ys.length = ([] : List α) :=
        List.drop_of_length_le (le_refl _)
      exact ⟨ys.length, by rw [e1, e2]⟩

/-- **C4.** Shutdown completeness: start a fresh recorder, append `xs`
(non-empty), run a regular flush tick, append a window `ys`, then cancel.
The shutdown path's final flush writes exactly the records of the linearized
view beyond `last_flush_idx` — and nothing when none exist — to the
dedicated final-output file; those records are a suffix of the
post-flush window `ys`, so none of the records written by the last regular
flush is duplicated; the still-open bucket writer is closed; the final path
collides with no rolling bucket path; and the cancellation is re-raised. -/
theorem claim_shutdown_final_flush (C : Nat) (hC : 0 < C) (init xs ys : List α)
    (hinit : init.length = C) (hxs : xs ≠ []) (now1 now2 : Now) :
    ∃ s1 evs1,
      ({ ring := ringOf C init xs, last_flush_idx := 0,
         parquet_writer := none, current_file_path := none } :
        MarketRecorder α).parquet_flush_tick now1 true = .ok (s1, evs1) ∧
      (let s2 : MarketRecorder α := { s1 with ring := s1.ring.appendAll ys }
       let r := s2.run_cancelled now2
       finalWritesOf r.2.1 =
         (if s2.last_flush_idx < s2.ring.linear_view.length then
            [(finalFilePath now2,
              s2.ring.linear_view.drop s2.last_flush_idx)]
          else []) ∧
       (∀ pr ∈ finalWritesOf r.2.1, ∃ k, pr.2 = ys.drop k) ∧
       closesOf r.2.1 = [bucketFilePath now1] ∧
       (∀ m : Now, finalFilePath now2 ≠ bucketFilePath m) ∧
       r.2.2 = Except.error ()) := by
  have hlen1 : (ringOf C init xs).linear_view.length = min xs.length C := by
    exact ringOf_view_length C hC init hinit xs
  have hpos : 0 < (ringOf C init xs).linear_view.length := by
    rw [hlen1]
    have : xs.length ≠ 0 := fun h => hxs (List.eq_nil_of_length_eq_zero h)
    omega
  have ht := flushTick_fires_eq
    ({ ring := ringOf C init xs, last_flush_idx := 0,
       parquet_writer := none, current_file_path := none } : MarketRecorder α)
    now1 (by dsimp only; omega)
  rw [if_pos (by simp)] at ht
  refine ⟨_, _, ht, ?_⟩
  unfold MarketRecorder.run_cancelled MarketRecorder.final_flush
  dsimp only
  have hr2 : (ringOf C init xs).appendAll ys = ringOf C init (xs ++ ys) :=
    (ringOf_append C init xs ys).symm
  refine ⟨by split <;> simp, ?_, ?_, ?_, rfl⟩
  · intro pr hpr
    split at hpr
    · simp at hpr
      subst hpr
      dsimp only
      rw [hr2]
      exact view_drop_cursor_suffix C hC init xs ys hinit
    · simp at hpr
  · split <;> simp
  · intro m hm
    have hml := congrArg List.length hm
    simp [finalFilePath, bucketFilePath] at hml

theorem claim_shutdown_final_flush_witness :
    (0 < 2 ∧ ([0, 0] : List Nat).length = 2 ∧ ([1] : List Nat) ≠ []) ∧
    (∃ s1 evs1,
      ({ ring := ringOf 2 [0, 0] [1], last_flush_idx := 0,
         parquet_writer := none, current_file_path := none } :
        MarketRecorder Nat).parquet_flush_tick nowW true = .ok (s1, evs1) ∧
      (let s2 : MarketRecorder Nat :=
        { s1 with ring := s1.ring.appendAll [2, 3] }
       let r := s2.run_cancelled nowW
       finalWritesOf r.2.1 =
         (if s2.last_flush_idx < s2.ring.linear_view.length then
            [(finalFilePath nowW,
              s2.ring.linear_view.drop s2.last_flush_idx)]
          else []) ∧
       (∀ pr ∈ finalWritesOf r.2.1, ∃ k, pr.2 = ([2, 3] : List Nat).drop k) ∧
       closesOf r.2.1 = [bucketFilePath nowW] ∧
       (∀ m : Now, finalFilePath nowW ≠ bucketFilePath m) ∧
       r.2.2 = Except.error ())) :=
  ⟨⟨by decide, by decide, by decide⟩,
    claim_shutdown_final_flush 2 (by decide) [0, 0] [1] [2, 3] (by decide)
      (by decide) nowW nowW⟩
